import Mathlib

/-!
Verification of the grouping-and-triage pipeline of IMAGEs_SORTING
(src/app.py) against its specification.

Strings from the Python code (file names, extensions, date strings) are
modelled as lists of characters (`List Char`), matching Python semantics of
operating on sequences of code points.  Timestamps are modelled as rationals
(`ℚ`), standing for the real-valued second counts that `datetime`
subtraction produces.  File contents are opaque tokens (`ℕ`).
-/

/-- Python str.lower, applied code-point-wise (model of str.lower for the
ASCII names involved). -/
def lowerCh (s : List Char) : List Char := s.map Char.toLower

/-- Python str.endswith: the last p.length characters of s equal p. -/
def endsWithCh (s p : List Char) : Bool := decide (s.drop (s.length - p.length) = p)

/-- One scanned file together with its resolved timestamp, the pair
(f, get_photo_datetime(f)) built in ImageManager.scan_folder (app.py line 74). -/
structure FileEnt where
  name : List Char
  ts : ℚ
deriving DecidableEq

/-- app.py line 91/92: file.lower().endswith gif check. -/
def isGif (f : FileEnt) : Prop := endsWithCh (lowerCh f.name) ".gif".data = true

instance (f : FileEnt) : Decidable (isGif f) := by unfold isGif; infer_instance

/-- The grouping condition of app.py line 94: delta <= time_threshold and
not is_gif and not prev_is_gif, with delta = curr - prev in seconds. -/
def sameBurst (t : ℚ) (p c : FileEnt) : Prop :=
  c.ts - p.ts ≤ t ∧ ¬ isGif c ∧ ¬ isGif p

instance (t : ℚ) (p c : FileEnt) : Decidable (sameBurst t p c) := by
  unfold sameBurst; infer_instance

/-- The loop of app.py lines 84-101: p is the previous file, cur the open
group, acc the closed groups (self.groups).  The final `if current_group`
append of line 100 is the base case (cur is always nonempty). -/
def groupLoop (t : ℚ) : FileEnt → List FileEnt → List (List FileEnt) → List FileEnt → List (List FileEnt)
  | _, cur, acc, [] => acc ++ [cur]
  | p, cur, acc, c :: rest =>
      if sameBurst t p c then groupLoop t c (cur ++ [c]) acc rest
      else groupLoop t c [c] (acc ++ [cur]) rest

/-- The grouping pass of ImageManager.scan_folder (app.py lines 78-101),
applied to the timestamp-sorted file list. -/
def scanGroups (t : ℚ) : List FileEnt → List (List FileEnt)
  | [] => []
  | f :: fs => groupLoop t f [f] [] fs

/-- The sort of app.py line 76: files_with_dates.sort(key=lambda x: x[1]),
a stable ascending sort by resolved timestamp. -/
def sortByTs (l : List FileEnt) : List FileEnt :=
  l.mergeSort (fun a b => decide (a.ts ≤ b.ts))

/-- ImageManager.scan_folder after file enumeration: sort by resolved
timestamp (line 76), then the single grouping pass (lines 78-101). -/
def scan_folder (t : ℚ) (files : List FileEnt) : List (List FileEnt) :=
  scanGroups t (sortByTs files)

/-- Glue cur onto the front group of a group list (helper for the
specification-side recursion). -/
def consGlue (cur : List FileEnt) : List (List FileEnt) → List (List FileEnt)
  | [] => [cur]
  | g :: gs => (cur ++ g) :: gs

/-- Modelled from the spec: the grouping rule as the specification words it
— start a new group with the first file; each subsequent file is appended
to the open group iff the delta to the immediately preceding file is at
most the threshold and neither file is a GIF, otherwise a new group is
started.  Written as a structural recursion: b joins a's group iff
sameBurst t a b. -/
def specGroups (t : ℚ) : List FileEnt → List (List FileEnt)
  | [] => []
  | [a] => [[a]]
  | a :: b :: rest =>
      if sameBurst t a b then consGlue [a] (specGroups t (b :: rest))
      else [a] :: specGroups t (b :: rest)

/-- Decimal rendering of a natural number (the digits emitted by a Python
f-string for an int), least significant digit computed first; fuel-driven
so that it is structurally recursive.  Any fuel at least n is enough. -/
def toDecimalAux : ℕ → ℕ → List Char
  | 0, _ => []
  | fuel + 1, n => if n = 0 then [] else toDecimalAux fuel (n / 10) ++ [Nat.digitChar (n % 10)]

/-- Decimal rendering of n, the model of Python str(int). -/
def natToDecimal (n : ℕ) : List Char := if n = 0 then ['0'] else toDecimalAux n n

/-- The candidate name for counter k built at app.py line 117:
the Python f-string date_str underscore counter ext. -/
def suffixName (dateStr ext : List Char) (k : ℕ) : List Char :=
  dateStr ++ "_".data ++ natToDecimal k ++ ext

/-- The while-loop of app.py lines 116-120, probing counter k, k+1, ... for
a name not in the destination directory.  The unbounded Python loop is
modelled with explicit fuel; fuel existing.length + 1 is proven sufficient
(probeNames_spec and the pigeonhole argument in get_safe_spec). -/
def probeNames (existing : List (List Char)) (f : ℕ → List Char) : ℕ → ℕ → List Char
  | k, 0 => f k
  | k, fuel + 1 => if f k ∈ existing then probeNames existing f (k + 1) fuel else f k

/-- get_safe_filename_date (app.py lines 108-120).  The destination
directory is modelled by the list of filenames it contains; os.path.exists
on a joined path becomes membership of the candidate name in that list. -/
def get_safe_filename_date (existing : List (List Char)) (dateStr ext : List Char) : List Char :=
  if dateStr ++ ext ∈ existing then
    probeNames existing (suffixName dateStr ext) 1 (existing.length + 1)
  else dateStr ++ ext

/-- The k-th candidate name overall: index 0 is the base candidate
date_str + ext, index k >= 1 is the suffixed candidate. -/
def nameFor (dateStr ext : List Char) : ℕ → List Char
  | 0 => dateStr ++ ext
  | k + 1 => suffixName dateStr ext (k + 1)

/-- One media item of a group as the triage actions see it: src basename
split by os.path.splitext into stem and extension, the strftime result of
its resolved datetime, and an opaque content token for the file bytes. -/
structure Item where
  base : List Char
  ext : List Char
  dateStr : List Char
  content : ℕ
deriving DecidableEq

/-- The source basename of an item (stem + extension). -/
def Item.path (it : Item) : List Char := it.base ++ it.ext

/-- app.py line 329: src.lower().endswith(mov, mp4, avi, mkv). -/
def isVideoKeep (s : List Char) : Bool :=
  endsWithCh (lowerCh s) ".mov".data || endsWithCh (lowerCh s) ".mp4".data ||
  endsWithCh (lowerCh s) ".avi".data || endsWithCh (lowerCh s) ".mkv".data

/-- app.py lines 259 and 378: file.lower().endswith(mov, mp4) — the items
skipped when collecting GIF frames. -/
def isVideoGifSkip (s : List Char) : Bool :=
  endsWithCh (lowerCh s) ".mov".data || endsWithCh (lowerCh s) ".mp4".data

/-- The fractional crop box of the keep action (app.py lines 340-346). -/
structure CropSpec where
  x : ℚ
  y : ℚ
  w : ℚ
  h : ℚ
deriving DecidableEq

/-- One iteration of the keep_all loop (app.py lines 321-360) for one item:
choose the destination name with get_safe_filename_date, then either write
the re-encoded image (oracle = some c: the decode/rotate/crop/save pipeline
succeeded producing content c) or, when the pipeline raises (oracle = none),
fall back to a plain move of the original content.  Videos and no-edit
requests are always plain-moved. -/
def keepEntry (rotation : ℤ) (crop : Option CropSpec) (oracle : Option ℕ)
    (it : Item) (keptNames : List (List Char)) : List Char × ℕ :=
  let nm := get_safe_filename_date keptNames it.dateStr it.ext
  if isVideoKeep it.path = false ∧ (rotation ≠ 0 ∨ crop.isSome) then
    match oracle with
    | some c => (nm, c)
    | none => (nm, it.content)
  else (nm, it.content)

/-- The keep_all action (app.py lines 317-360): process the group in order,
threading the set of names present in the keep directory, and return the
list of (destination name, stored content) pairs created there.  The
oracle gives, per item position, the outcome of the image edit pipeline
(none = it raised an exception). -/
def keepAll (rotation : ℤ) (crop : Option CropSpec) (oracle : ℕ → Option ℕ) :
    List Item → List (List Char) → List (List Char × ℕ)
  | [], _ => []
  | it :: rest, keptNames =>
      let e := keepEntry rotation crop (oracle 0) it keptNames
      e :: keepAll rotation crop (fun j => oracle (j + 1)) rest (e.1 :: keptNames)

/-- The trash_all action (app.py lines 308-315): move each item of the
group to the trash directory under its basename; when that basename is
already present, under the basename suffixed with int(time.time()) (the
clock argument gives the epoch seconds observed at each iteration).  The
trash directory is modelled by its list of names; each log entry records
the destination chosen for the item and whether a file with that exact
name already existed there at move time (shutil.move clobbers it then). -/
def trashAll (clock : ℕ → ℕ) : ℕ → List Item → List (List Char) → List (List Char × Bool)
  | _, [], _ => []
  | i, it :: rest, dir =>
      if (it.base ++ it.ext) ∈ dir then
        (suffixName it.base it.ext (clock i),
          decide (suffixName it.base it.ext (clock i) ∈ dir))
          :: trashAll clock (i + 1) rest (suffixName it.base it.ext (clock i) :: dir)
      else
        (it.base ++ it.ext, decide ((it.base ++ it.ext) ∈ dir))
          :: trashAll clock (i + 1) rest ((it.base ++ it.ext) :: dir)

/-- The Python slice frames[-2:0:-1] (app.py lines 275 and 392): the
elements at indices length-2 down to 1, i.e. the reversal of the ascending
index range 1..length-2. -/
def pySliceRevTail {α : Type} (l : List α) : List α :=
  ((List.range' 1 (l.length - 2)).reverse).filterMap (fun i => l[i]?)

/-- GIF bounce-mode assembly (app.py lines 273-275 and 390-392):
frames + frames[-2:0:-1]. -/
def bounceAssemble {α : Type} (l : List α) : List α := l ++ pySliceRevTail l

/-- The includedIndices selection used by both generate_preview_gif
(app.py lines 246-252) and the save_gif action (lines 370-374): keep only
the in-range indices, sort them ascending, and take the group items at
those positions. -/
def selectIncluded (group : List Item) (idxs : List ℤ) : List Item :=
  ((idxs.filter (fun i => decide (0 ≤ i ∧ i < (group.length : ℤ)))).mergeSort).filterMap
    (fun i => group[i.toNat]?)

/-- app.py line 368: place.replace(space, underscore) if place else Unknown
(single-character replace modelled code-point-wise). -/
def placeSafe (place : List Char) : List Char :=
  if place = [] then "Unknown".data
  else place.map (fun c => if c = ' ' then '_' else c)

/-- The optionally index-filtered item subset used by save_gif
(app.py lines 370-374). -/
def gifTargets (group : List Item) (included : Option (List ℤ)) : List Item :=
  match included with
  | some l => selectIncluded group l
  | none => group

/-- The frames collected by the save_gif loop (app.py lines 376-386):
videos are skipped, every other item contributes one frame (its decoded,
resized, orientation-corrected, palette-quantized image — content kept as
the opaque token). -/
def gifFrames (group : List Item) (included : Option (List ℤ)) : List ℕ :=
  ((gifTargets group included).filter (fun it => ! isVideoGifSkip it.path)).map
    (fun it => it.content)

/-- The save_gif action (app.py lines 362-406).  The keep directory is the
list of (name, stored frame sequence) pairs.  Returns the HTTP-level
result (error message or saved gif name) together with the directory
after the action: the error branch at line 388 fires before any
filesystem write, so the directory is returned unchanged there. -/
def saveGif (group : List Item) (included : Option (List ℤ)) (mode : List Char)
    (place : List Char) (kept : List (List Char × List ℕ)) :
    (Except (List Char) (List Char)) × List (List Char × List ℕ) :=
  let frames := gifFrames group included
  if frames = [] then (Except.error "No images selected".data, kept)
  else
    let outputFrames := if mode = "bounce".data then bounceAssemble frames else frames
    let dateStr := match group with
      | [] => []
      | it :: _ => it.dateStr
    let baseFilename := dateStr ++ "_".data ++ placeSafe place
    let gifName :=
      if (baseFilename ++ ".gif".data) ∈ kept.map Prod.fst then
        probeNames (kept.map Prod.fst)
          (fun k => baseFilename ++ "_".data ++ natToDecimal k ++ ".gif".data) 1
          (kept.length + 1)
      else baseFilename ++ ".gif".data
    (Except.ok gifName, (gifName, outputFrames) :: kept)

/-- The HTTP-level kind of response a route produces for a request. -/
inductive HttpKind where
  | clientError : ℕ → HttpKind
  | serverError : HttpKind
  | proceeds : HttpKind
deriving DecidableEq

/-- Python list indexing lst(i) for int i: 0-based for 0 <= i < len,
negative indices count from the end, anything else raises IndexError
(modelled as none). -/
def pyIndex {α : Type} (l : List α) (i : ℤ) : Option α :=
  if 0 ≤ i then l[i.toNat]?
  else if 0 ≤ (l.length : ℤ) + i then l[((l.length : ℤ) + i).toNat]? else none

/-- The group lookup of the media route (app.py lines 196-233): an explicit
bounds check groupId >= len(groups) answers 404 (client error); otherwise
the list access runs inside the route's try/except, so an IndexError from
a far-negative index becomes a 500 (server error), and any resolved group
lets the handler proceed. -/
def media_group_outcome {α : Type} (groups : List α) (gid : ℤ) : HttpKind :=
  if (groups.length : ℤ) ≤ gid then HttpKind.clientError 404
  else
    match pyIndex groups gid with
    | some _ => HttpKind.proceeds
    | none => HttpKind.serverError

/-- The group lookup of the action route (app.py line 298):
manager.groups[group_id] runs before the try block with no bounds check,
so an out-of-range id raises an uncaught IndexError — a server error. -/
def action_group_outcome {α : Type} (groups : List α) (gid : ℤ) : HttpKind :=
  match pyIndex groups gid with
  | some _ => HttpKind.proceeds
  | none => HttpKind.serverError

/-- The group lookup of the preview route (app.py line 243): same unchecked
access outside the try block as the action route. -/
def preview_group_outcome {α : Type} (groups : List α) (gid : ℤ) : HttpKind :=
  match pyIndex groups gid with
  | some _ => HttpKind.proceeds
  | none => HttpKind.serverError

theorem groupLoop_acc (t : ℚ) (l : List FileEnt) :
    ∀ p cur acc, groupLoop t p cur acc l = acc ++ groupLoop t p cur [] l := by
  induction l with
  | nil => intro p cur acc; simp [groupLoop]
  | cons c rest ih =>
      intro p cur acc
      by_cases h : sameBurst t p c
      · simp only [groupLoop, if_pos h]
        rw [ih c (cur ++ [c]) acc]
      · simp only [groupLoop, if_neg h]
        rw [ih c [c] (acc ++ [cur]), ih c [c] ([] ++ [cur])]
        simp

theorem consGlue_consGlue (cur b : List FileEnt) (S : List (List FileEnt)) :
    consGlue cur (consGlue b S) = consGlue (cur ++ b) S := by
  cases S <;> simp [consGlue]

theorem groupLoop_spec (t : ℚ) (l : List FileEnt) :
    ∀ p cur, groupLoop t p cur [] l =
      match l with
      | [] => [cur]
      | b :: _ => if sameBurst t p b then consGlue cur (specGroups t l)
                  else cur :: specGroups t l := by
  induction l with
  | nil => intro p cur; simp [groupLoop]
  | cons b rest ih =>
      intro p cur
      by_cases h : sameBurst t p b
      · simp only [groupLoop, if_pos h]
        rw [ih b (cur ++ [b])]
        cases rest with
        | nil => simp [specGroups, consGlue, h]
        | cons c rest2 =>
            by_cases h2 : sameBurst t b c
            · simp only [specGroups, if_pos h2, if_pos h, consGlue_consGlue]
            · simp only [specGroups, if_neg h2, if_pos h, consGlue]
      · simp only [groupLoop, if_neg h]
        rw [groupLoop_acc, ih b [b]]
        cases rest with
        | nil => simp [specGroups, h]
        | cons c rest2 =>
            by_cases h2 : sameBurst t b c
            · simp only [specGroups, if_pos h2, if_neg h]
              simp [consGlue_consGlue]
            · simp only [specGroups, if_neg h2, if_neg h]
              simp

theorem scanGroups_eq_specGroups (t : ℚ) (l : List FileEnt) :
    scanGroups t l = specGroups t l := by
  cases l with
  | nil => rfl
  | cons f fs =>
      simp only [scanGroups]
      rw [groupLoop_spec]
      cases fs with
      | nil => simp [specGroups]
      | cons b rest =>
          by_cases h : sameBurst t f b
          · simp [specGroups, if_pos h]
          · simp [specGroups, if_neg h]

theorem specGroups_head (t : ℚ) (rest : List FileEnt) :
    ∀ b, ∃ tl gs, specGroups t (b :: rest) = (b :: tl) :: gs := by
  induction rest with
  | nil => intro b; exact ⟨[], [], rfl⟩
  | cons c rest2 ih =>
      intro b
      by_cases h : sameBurst t b c
      · obtain ⟨tl2, gs2, heq⟩ := ih c
        refine ⟨c :: tl2, gs2, ?_⟩
        rw [specGroups, if_pos h, heq]
        rfl
      · exact ⟨[], specGroups t (c :: rest2), by rw [specGroups, if_neg h]⟩

theorem specGroups_gif_free (t : ℚ) (l : List FileEnt) :
    ∀ g ∈ specGroups t l, 2 ≤ g.length → ∀ x ∈ g, ¬ isGif x := by
  induction l with
  | nil => simp [specGroups]
  | cons a l ih =>
      cases l with
      | nil =>
          intro g hg hlen
          simp [specGroups] at hg
          subst hg
          simp at hlen
      | cons b rest =>
          intro g hg hlen x hx
          by_cases h : sameBurst t a b
          · obtain ⟨tl, gs, heq⟩ := specGroups_head t rest b
            rw [specGroups, if_pos h, heq] at hg
            simp only [consGlue, List.singleton_append] at hg
            rcases List.mem_cons.mp hg with hg1 | hg2
            · subst hg1
              rcases List.mem_cons.mp hx with hxa | hxbt
              · subst hxa; exact h.2.2
              · cases tl with
                | nil =>
                    simp at hxbt
                    subst hxbt; exact h.2.1
                | cons u us =>
                    have hmem : (b :: u :: us) ∈ specGroups t (b :: rest) := by
                      rw [heq]; exact List.mem_cons_self _ _
                    exact ih (b :: u :: us) hmem (by simp) x hxbt
            · have hmem : g ∈ specGroups t (b :: rest) := by
                rw [heq]; exact List.mem_cons_of_mem _ hg2
              exact ih g hmem hlen x hx
          · rw [specGroups, if_neg h] at hg
            rcases List.mem_cons.mp hg with hg1 | hg2
            · subst hg1; simp at hlen
            · exact ih g hg2 hlen x hx

/-- C1: scan_folder sorts the files ascending by resolved timestamp and then
makes a single left-to-right pass in which each subsequent file joins the
open group iff the delta to the immediately preceding file is at most the
threshold and neither file is a GIF (specGroups states exactly that rule);
the boundary delta = t is inclusive because the condition is a
non-strict inequality. -/
theorem C1_grouping_pass :
    (∀ (t : ℚ) (files : List FileEnt),
        scan_folder t files = specGroups t (sortByTs files))
    ∧ (∀ (t : ℚ) (p c : FileEnt),
        c.ts - p.ts = t → ¬ isGif c → ¬ isGif p → sameBurst t p c) := by
  constructor
  · intro t files
    exact scanGroups_eq_specGroups t (sortByTs files)
  · intro t p c hd hc hp
    exact ⟨le_of_eq hd, hc, hp⟩

/-- Witness for C1 at concrete inputs, including the inclusive boundary
delta = t with t = 2. -/
theorem C1_grouping_pass_witness :
    scan_folder 2 [⟨"a.jpg".data, 0⟩, ⟨"b.jpg".data, 2⟩]
      = specGroups 2 (sortByTs [⟨"a.jpg".data, 0⟩, ⟨"b.jpg".data, 2⟩])
    ∧ sameBurst 2 ⟨"a.jpg".data, 0⟩ ⟨"b.jpg".data, 2⟩ :=
  ⟨C1_grouping_pass.1 2 _,
   C1_grouping_pass.2 2 ⟨"a.jpg".data, 0⟩ ⟨"b.jpg".data, 2⟩ (by norm_num)
     (by decide) (by decide)⟩

/-- C2: no group produced by the grouping pass mixes a GIF item with a
non-GIF item — every group that contains a GIF item is a singleton. -/
theorem C2_gif_group_singleton :
    ∀ (t : ℚ) (l : List FileEnt) (g : List FileEnt),
      g ∈ scanGroups t l → (∃ x ∈ g, isGif x) → g.length = 1 := by
  intro t l g hg ⟨x, hx, hgif⟩
  rw [scanGroups_eq_specGroups] at hg
  by_contra hne
  have h1 : 1 ≤ g.length := by
    cases g with
    | nil => simp at hx
    | cons y ys => simp
  have h2 : 2 ≤ g.length := by omega
  exact specGroups_gif_free t l g hg h2 x hx hgif

/-- Witness for C2: a scan where a GIF coincides in time with a photo still
yields a singleton GIF group. -/
theorem C2_gif_group_singleton_witness :
    ([⟨"a.gif".data, 0⟩] : List FileEnt)
        ∈ scanGroups 2 [⟨"a.gif".data, 0⟩, ⟨"b.jpg".data, 1⟩]
    ∧ ([⟨"a.gif".data, 0⟩] : List FileEnt).length = 1 := by
  have hng : ¬ sameBurst 2 ⟨"a.gif".data, 0⟩ ⟨"b.jpg".data, 1⟩ :=
    fun h => h.2.2 (by decide)
  have hmem : ([⟨"a.gif".data, 0⟩] : List FileEnt)
      ∈ scanGroups 2 [⟨"a.gif".data, 0⟩, ⟨"b.jpg".data, 1⟩] := by
    simp only [scanGroups, groupLoop, if_neg hng]
    simp
  exact ⟨hmem, C2_gif_group_singleton 2 _ _ hmem ⟨⟨"a.gif".data, 0⟩, by simp, by decide⟩⟩

theorem toDecimalAux_eq (fuel : ℕ) :
    ∀ n, n ≤ fuel → toDecimalAux fuel n = ((Nat.digits 10 n).map Nat.digitChar).reverse := by
  induction fuel with
  | zero =>
      intro n hn
      interval_cases n
      simp [toDecimalAux]
  | succ fuel ih =>
      intro n hn
      by_cases h : n = 0
      · subst h; simp [toDecimalAux]
      · have hpos : 0 < n := Nat.pos_of_ne_zero h
        have hdiv : n / 10 ≤ fuel := by
          have := Nat.div_lt_self hpos (by norm_num : (1:ℕ) < 10)
          omega
        rw [toDecimalAux, if_neg h, ih (n / 10) hdiv,
          Nat.digits_def' (by norm_num : (1:ℕ) < 10) hpos]
        simp

theorem digitChar_inj_lt :
    ∀ a < 10, ∀ b < 10, Nat.digitChar a = Nat.digitChar b → a = b := by decide

theorem map_digitChar_inj :
    ∀ (l1 l2 : List ℕ), (∀ x ∈ l1, x < 10) → (∀ x ∈ l2, x < 10) →
      l1.map Nat.digitChar = l2.map Nat.digitChar → l1 = l2 := by
  intro l1
  induction l1 with
  | nil => intro l2 _ _ h; cases l2 <;> simp_all
  | cons a l1 ih =>
      intro l2 h1 h2 h
      cases l2 with
      | nil => simp at h
      | cons b l2 =>
          simp only [List.map_cons, List.cons.injEq] at h
          have ha : a = b :=
            digitChar_inj_lt a (h1 a (by simp)) b (h2 b (by simp)) h.1
          have := ih l2 (fun x hx => h1 x (by simp [hx]))
            (fun x hx => h2 x (by simp [hx])) h.2
          simp [ha, this]

theorem natToDecimal_inj : Function.Injective natToDecimal := by
  have hdig : ∀ n : ℕ, n ≠ 0 →
      natToDecimal n = ((Nat.digits 10 n).map Nat.digitChar).reverse := by
    intro n hn
    rw [natToDecimal, if_neg hn]
    exact toDecimalAux_eq n n le_rfl
  have hzero : ∀ n : ℕ, n ≠ 0 → natToDecimal n ≠ ['0'] := by
    intro n hn hcontra
    rw [hdig n hn] at hcontra
    have h1 : (Nat.digits 10 n).map Nat.digitChar = ['0'] := by
      have := congrArg List.reverse hcontra
      simpa using this
    cases hd : Nat.digits 10 n with
    | nil => rw [hd] at h1; simp at h1
    | cons d ds =>
        rw [hd] at h1
        cases ds with
        | nil =>
            simp at h1
            have hd10 : d < 10 :=
              Nat.digits_lt_base (by norm_num) (by rw [hd]; simp)
            have : d = 0 := digitChar_inj_lt d hd10 0 (by norm_num) (by simpa using h1)
            subst this
            have := Nat.ofDigits_digits 10 n
            rw [hd] at this
            simp [Nat.ofDigits] at this
            exact hn this.symm
        | cons d2 ds2 => simp at h1
  intro a b hab
  by_cases ha : a = 0
  · by_cases hb : b = 0
    · omega
    · subst ha
      exact absurd hab.symm (by simpa [natToDecimal] using hzero b hb)
  · by_cases hb : b = 0
    · subst hb
      exact absurd hab (by simpa [natToDecimal] using hzero a ha)
    · rw [hdig a ha, hdig b hb] at hab
      have h1 := List.reverse_injective hab
      have h2 : Nat.digits 10 a = Nat.digits 10 b :=
        map_digitChar_inj _ _
          (fun x hx => Nat.digits_lt_base (by norm_num) hx)
          (fun x hx => Nat.digits_lt_base (by norm_num) hx) h1
      have := congrArg (Nat.ofDigits 10) h2
      rwa [Nat.ofDigits_digits, Nat.ofDigits_digits] at this

theorem suffixName_inj (dateStr ext : List Char) :
    Function.Injective (suffixName dateStr ext) := by
  intro a b h
  unfold suffixName at h
  rw [List.append_assoc, List.append_assoc, List.append_assoc, List.append_assoc] at h
  have h1 := List.append_cancel_left h
  have h2 := List.append_cancel_left h1
  have h3 := List.append_cancel_right h2
  exact natToDecimal_inj h3

theorem probeNames_spec (existing : List (List Char)) (f : ℕ → List Char) :
    ∀ fuel k, (∃ j, j < fuel ∧ f (k + j) ∉ existing) →
      ∃ j, j < fuel ∧ probeNames existing f k fuel = f (k + j) ∧
        f (k + j) ∉ existing ∧ ∀ i < j, f (k + i) ∈ existing := by
  intro fuel
  induction fuel with
  | zero => intro k ⟨j, hj, _⟩; omega
  | succ fuel ih =>
      intro k ⟨j, hj, hnot⟩
      by_cases hk : f k ∈ existing
      · have hjne : j ≠ 0 := by
          intro h0; subst h0; simp at hnot; exact hnot hk
        obtain ⟨j', rfl⟩ : ∃ j', j = j' + 1 := ⟨j - 1, by omega⟩
        have hrec : ∃ j2, j2 < fuel ∧ f (k + 1 + j2) ∉ existing :=
          ⟨j', by omega, by rw [show k + 1 + j' = k + (j' + 1) by omega]; exact hnot⟩
        obtain ⟨j2, hj2, heq, hnot2, hmin2⟩ := ih (k + 1) hrec
        refine ⟨j2 + 1, by omega, ?_, ?_, ?_⟩
        · rw [probeNames, if_pos hk, heq]
          congr 1
          omega
        · rw [show k + (j2 + 1) = k + 1 + j2 by omega]; exact hnot2
        · intro i hi
          cases i with
          | zero => simpa using hk
          | succ i' =>
              rw [show k + (i' + 1) = k + 1 + i' by omega]
              exact hmin2 i' (by omega)
      · exact ⟨0, by omega, by rw [probeNames, if_neg hk]; simp, by simpa using hk,
          by omega⟩

theorem exists_unused (existing : List (List Char)) (f : ℕ → List Char)
    (hf : Function.Injective f) :
    ∃ j, j < existing.length + 1 ∧ f (1 + j) ∉ existing := by
  by_contra hcon
  push_neg at hcon
  set L := (List.range (existing.length + 1)).map (fun j => f (1 + j)) with hL
  have hnodup : L.Nodup := by
    refine List.Nodup.map ?_ (List.nodup_range _)
    intro a b hab
    have := hf hab
    omega
  have hsub : L ⊆ existing := by
    intro x hx
    rw [hL] at hx
    simp only [List.mem_map, List.mem_range] at hx
    obtain ⟨j, hj, rfl⟩ := hx
    exact hcon j hj
  have hlen : L.length = existing.length + 1 := by simp [hL]
  have hcard1 : L.toFinset.card = existing.length + 1 := by
    rw [List.toFinset_card_of_nodup hnodup, hlen]
  have hcard2 : L.toFinset ⊆ existing.toFinset := by
    intro x hx
    rw [List.mem_toFinset] at hx ⊢
    exact hsub hx
  have := Finset.card_le_card hcard2
  have := List.toFinset_card_le existing
  omega

theorem get_safe_spec (existing : List (List Char)) (dateStr ext : List Char) :
    ∃ k, get_safe_filename_date existing dateStr ext = nameFor dateStr ext k ∧
      nameFor dateStr ext k ∉ existing ∧ ∀ j < k, nameFor dateStr ext j ∈ existing := by
  by_cases hb : dateStr ++ ext ∈ existing
  · obtain ⟨j, hj, hnot⟩ := exists_unused existing (suffixName dateStr ext)
      (suffixName_inj dateStr ext)
    obtain ⟨j2, hj2, heq, hnot2, hmin2⟩ :=
      probeNames_spec existing (suffixName dateStr ext) (existing.length + 1) 1
        ⟨j, hj, hnot⟩
    refine ⟨j2 + 1, ?_, ?_, ?_⟩
    · rw [get_safe_filename_date, if_pos hb, heq, nameFor]
      congr 1
      omega
    · rw [nameFor, show j2 + 1 = 1 + j2 by omega]
      exact hnot2
    · intro i hi
      cases i with
      | zero => simpa [nameFor] using hb
      | succ i' =>
          rw [nameFor, show i' + 1 = 1 + i' by omega]
          exact hmin2 i' (by omega)
  · exact ⟨0, by rw [get_safe_filename_date, if_neg hb]; rfl, by simpa [nameFor] using hb,
      by omega⟩

/-- C3: the keep-directory namer never returns a name present in the
destination directory: it returns the base candidate date_str + ext when
that is absent, and otherwise the suffixed candidate for the smallest
positive counter whose name is unused. -/
theorem C3_safe_filename :
    ∀ (existing : List (List Char)) (dateStr ext : List Char),
      get_safe_filename_date existing dateStr ext ∉ existing
      ∧ (dateStr ++ ext ∉ existing →
          get_safe_filename_date existing dateStr ext = dateStr ++ ext)
      ∧ (dateStr ++ ext ∈ existing →
          ∃ k, 1 ≤ k ∧ get_safe_filename_date existing dateStr ext = suffixName dateStr ext k
            ∧ suffixName dateStr ext k ∉ existing
            ∧ ∀ j, 1 ≤ j → j < k → suffixName dateStr ext j ∈ existing) := by
  intro existing dateStr ext
  obtain ⟨k, heq, hnot, hmin⟩ := get_safe_spec existing dateStr ext
  refine ⟨heq ▸ hnot, ?_, ?_⟩
  · intro hbase
    have hk0 : k = 0 := by
      by_contra h
      exact hbase (by simpa [nameFor] using hmin 0 (by omega))
    rw [heq, hk0, nameFor]
  · intro hbase
    have hk0 : k ≠ 0 := by
      intro h; subst h; exact hnot (by simpa [nameFor] using hbase)
    obtain ⟨k', rfl⟩ : ∃ k', k = k' + 1 := ⟨k - 1, by omega⟩
    refine ⟨k' + 1, by omega, by rw [heq, nameFor], by rw [← nameFor]; exact hnot, ?_⟩
    intro j hj1 hjk
    obtain ⟨j', rfl⟩ : ∃ j', j = j' + 1 := ⟨j - 1, by omega⟩
    have := hmin (j' + 1) hjk
    rwa [nameFor] at this

/-- Witness for C3 in a directory already holding the base name and the
first suffixed name. -/
theorem C3_safe_filename_witness :
    ("20240101".data ++ ".jpg".data) ∈ ["20240101.jpg".data, "20240101_1.jpg".data]
    ∧ get_safe_filename_date ["20240101.jpg".data, "20240101_1.jpg".data]
        "20240101".data ".jpg".data ∉ ["20240101.jpg".data, "20240101_1.jpg".data]
    ∧ ∃ k, 1 ≤ k ∧ get_safe_filename_date ["20240101.jpg".data, "20240101_1.jpg".data]
          "20240101".data ".jpg".data = suffixName "20240101".data ".jpg".data k
        ∧ suffixName "20240101".data ".jpg".data k ∉
            ["20240101.jpg".data, "20240101_1.jpg".data]
        ∧ ∀ j, 1 ≤ j → j < k → suffixName "20240101".data ".jpg".data j ∈
            ["20240101.jpg".data, "20240101_1.jpg".data] :=
  ⟨by decide,
   (C3_safe_filename ["20240101.jpg".data, "20240101_1.jpg".data]
      "20240101".data ".jpg".data).1,
   (C3_safe_filename ["20240101.jpg".data, "20240101_1.jpg".data]
      "20240101".data ".jpg".data).2.2 (by decide)⟩

/-- Counterexample to C4: get_safe_filename_date is a pure function of the
directory state, so a repeated call with no intervening file creation
returns the same name again (here the suffix _1 twice), not a strictly
higher suffix (_2). -/
theorem C4_counterexample :
    get_safe_filename_date ["20240101.jpg".data] "20240101".data ".jpg".data
        = "20240101_1.jpg".data
    ∧ get_safe_filename_date ["20240101.jpg".data] "20240101".data ".jpg".data
        = get_safe_filename_date ["20240101.jpg".data] "20240101".data ".jpg".data
    ∧ get_safe_filename_date ["20240101.jpg".data] "20240101".data ".jpg".data
        ≠ "20240101_2.jpg".data := by
  refine ⟨by decide, rfl, by decide⟩

/-- C4 as amended: when each returned name is created in the directory
before the next call, successive calls return candidates with strictly
increasing indices (index 0 = the base date name, index k = suffix _k). -/
theorem C4_amended_monotone :
    ∀ (existing : List (List Char)) (dateStr ext : List Char),
      ∃ k1 k2,
        get_safe_filename_date existing dateStr ext = nameFor dateStr ext k1
        ∧ get_safe_filename_date
            (get_safe_filename_date existing dateStr ext :: existing) dateStr ext
            = nameFor dateStr ext k2
        ∧ k1 < k2 := by
  intro existing dateStr ext
  obtain ⟨k1, h1, hn1, hm1⟩ := get_safe_spec existing dateStr ext
  obtain ⟨k2, h2, hn2, hm2⟩ :=
    get_safe_spec (get_safe_filename_date existing dateStr ext :: existing) dateStr ext
  refine ⟨k1, k2, h1, h2, ?_⟩
  by_contra hle
  push_neg at hle
  rcases Nat.lt_or_ge k2 k1 with hlt | hge
  · exact hn2 (List.mem_cons_of_mem _ (hm1 k2 hlt))
  · have hk : k2 = k1 := by omega
    subst hk
    exact hn2 (by rw [← h1]; exact List.mem_cons_self _ _)

theorem keepEntry_fst (rotation : ℤ) (crop : Option CropSpec) (oracle : Option ℕ)
    (it : Item) (keptNames : List (List Char)) :
    (keepEntry rotation crop oracle it keptNames).1
      = get_safe_filename_date keptNames it.dateStr it.ext := by
  unfold keepEntry
  split
  · cases oracle <;> rfl
  · rfl

theorem keepAll_length (rotation : ℤ) (crop : Option CropSpec) (group : List Item) :
    ∀ oracle keptNames, (keepAll rotation crop oracle group keptNames).length = group.length := by
  induction group with
  | nil => intro oracle keptNames; rfl
  | cons it rest ih => intro oracle keptNames; simp [keepAll, ih]

theorem keepAll_congr (rotation : ℤ) (crop : Option CropSpec) (group : List Item) :
    ∀ oracle oracle' keptNames, (∀ j, oracle' j = oracle j) →
      keepAll rotation crop oracle group keptNames
        = keepAll rotation crop oracle' group keptNames := by
  induction group with
  | nil => intro _ _ _ _; rfl
  | cons it rest ih =>
      intro oracle oracle' keptNames hagree
      simp only [keepAll, hagree 0]
      rw [ih (fun j => oracle (j + 1)) (fun j => oracle' (j + 1)) _ (fun j => hagree (j + 1))]

theorem keepAll_entry_none (rotation : ℤ) (crop : Option CropSpec) (group : List Item) :
    ∀ (i : ℕ) (it : Item) (oracle : ℕ → Option ℕ) (kept0 : List (List Char)),
      group[i]? = some it → oracle i = none →
      (rotation ≠ 0 ∨ crop.isSome) → isVideoKeep it.path = false →
      ∃ nm, (keepAll rotation crop oracle group kept0)[i]? = some (nm, it.content) := by
  induction group with
  | nil => intro i it oracle kept0 h; simp at h
  | cons a rest ih =>
      intro i it oracle kept0 hget hnone hedit hvid
      cases i with
      | zero =>
          obtain rfl : a = it := by simpa using hget
          refine ⟨get_safe_filename_date kept0 a.dateStr a.ext, ?_⟩
          simp only [keepAll, List.getElem?_cons_zero, Option.some.injEq]
          have h0 : oracle 0 = none := hnone
          simp only [keepEntry, h0, if_pos (And.intro hvid hedit)]
      | succ i' =>
          simp only [List.getElem?_cons_succ] at hget
          obtain ⟨nm, hnm⟩ := ih i' it (fun j => oracle (j + 1)) _ hget hnone hedit hvid
          exact ⟨nm, by simpa [keepAll] using hnm⟩

theorem keepAll_offsite (rotation : ℤ) (crop : Option CropSpec) (group : List Item) :
    ∀ (oracle oracle' : ℕ → Option ℕ) (i : ℕ) (kept0 : List (List Char)),
      (∀ j, j ≠ i → oracle' j = oracle j) →
      ∀ j, j ≠ i →
        (keepAll rotation crop oracle group kept0)[j]?
          = (keepAll rotation crop oracle' group kept0)[j]? := by
  induction group with
  | nil => intro _ _ _ _ _ j _; rfl
  | cons a rest ih =>
      intro oracle oracle' i kept0 hagree j hji
      cases i with
      | zero =>
          cases j with
          | zero => omega
          | succ j' =>
              simp only [keepAll, List.getElem?_cons_succ]
              have hname : (keepEntry rotation crop (oracle 0) a kept0).1
                  = (keepEntry rotation crop (oracle' 0) a kept0).1 := by
                rw [keepEntry_fst, keepEntry_fst]
              rw [hname]
              rw [keepAll_congr rotation crop rest (fun j => oracle (j + 1))
                (fun j => oracle' (j + 1)) _ (fun j => hagree (j + 1) (by omega))]
      | succ k =>
          have h0 : oracle' 0 = oracle 0 := hagree 0 (by omega)
          cases j with
          | zero => simp [keepAll, h0]
          | succ j' =>
              simp only [keepAll, List.getElem?_cons_succ, h0]
              exact ih (fun j => oracle (j + 1)) (fun j => oracle' (j + 1)) k _
                (fun j hj => hagree (j + 1) (by omega)) j' (by omega)

/-- C5: in keep_all with an edit requested (nonzero rotation or a crop), a
non-video item whose decode/re-encode pipeline fails (oracle none) is
plain-moved: the action completes for the whole group, that item's original
content appears at its keep destination, and every other item's destination
entry is exactly what it would have been had that item's pipeline
succeeded. -/
theorem C5_keep_all_decode_fallback :
    ∀ (rotation : ℤ) (crop : Option CropSpec) (oracle oracle' : ℕ → Option ℕ)
      (group : List Item) (kept0 : List (List Char)) (i : ℕ) (it : Item),
      (rotation ≠ 0 ∨ crop.isSome) →
      group[i]? = some it →
      isVideoKeep it.path = false →
      oracle i = none →
      (∀ j, j ≠ i → oracle' j = oracle j) →
      (keepAll rotation crop oracle group kept0).length = group.length
      ∧ (∃ nm, (keepAll rotation crop oracle group kept0)[i]? = some (nm, it.content))
      ∧ ∀ j, j ≠ i →
          (keepAll rotation crop oracle group kept0)[j]?
            = (keepAll rotation crop oracle' group kept0)[j]? := by
  intro rotation crop oracle oracle' group kept0 i it hedit hget hvid hnone hagree
  exact ⟨keepAll_length rotation crop group oracle kept0,
    keepAll_entry_none rotation crop group i it oracle kept0 hget hnone hedit hvid,
    keepAll_offsite rotation crop group oracle oracle' i kept0 hagree⟩

/-- Witness for C5: a two-item group with rotation 90 where the first
item's pipeline fails and the second succeeds. -/
theorem C5_keep_all_decode_fallback_witness :
    ((90 : ℤ) ≠ 0 ∨ (none : Option CropSpec).isSome)
    ∧ ([⟨"a".data, ".jpg".data, "20240101".data, 7⟩,
        ⟨"b".data, ".jpg".data, "20240101".data, 8⟩] : List Item)[0]?
        = some ⟨"a".data, ".jpg".data, "20240101".data, 7⟩
    ∧ isVideoKeep (Item.path ⟨"a".data, ".jpg".data, "20240101".data, 7⟩) = false
    ∧ ((keepAll 90 none (fun _ => none)
          [⟨"a".data, ".jpg".data, "20240101".data, 7⟩,
           ⟨"b".data, ".jpg".data, "20240101".data, 8⟩] []).length = 2
        ∧ (∃ nm, (keepAll 90 none (fun _ => none)
            [⟨"a".data, ".jpg".data, "20240101".data, 7⟩,
             ⟨"b".data, ".jpg".data, "20240101".data, 8⟩] [])[0]? = some (nm, 7))
        ∧ ∀ j, j ≠ 0 →
            (keepAll 90 none (fun _ => none)
              [⟨"a".data, ".jpg".data, "20240101".data, 7⟩,
               ⟨"b".data, ".jpg".data, "20240101".data, 8⟩] [])[j]?
              = (keepAll 90 none (fun _ => none)
              [⟨"a".data, ".jpg".data, "20240101".data, 7⟩,
               ⟨"b".data, ".jpg".data, "20240101".data, 8⟩] [])[j]?) := by
  refine ⟨by decide, by decide, by decide, ?_⟩
  exact C5_keep_all_decode_fallback 90 none (fun _ => none) (fun _ => none)
    [⟨"a".data, ".jpg".data, "20240101".data, 7⟩,
     ⟨"b".data, ".jpg".data, "20240101".data, 8⟩] [] 0
    ⟨"a".data, ".jpg".data, "20240101".data, 7⟩
    (by decide) (by decide) (by decide) rfl (fun _ _ => rfl)

theorem suffixName_ne_plain (b e : List Char) (k : ℕ) : suffixName b e k ≠ b ++ e := by
  intro h
  have := congrArg List.length h
  simp [suffixName] at this
  omega

/-- Counterexample to C8: trashing a.jpg at epoch 100 into a trash
directory that already holds both a.jpg and a_100.jpg picks the suffixed
destination a_100.jpg without re-checking it, so the move clobbers the
existing a_100.jpg (overwrite flag true). -/
theorem C8_counterexample :
    trashAll (fun _ => 100) 0 [⟨"a".data, ".jpg".data, "20240101".data, 7⟩]
        ["a.jpg".data, "a_100.jpg".data]
      = [("a_100.jpg".data, true)] := by decide

/-- C8 as amended: an item whose basename is free in the trash directory is
moved under that basename without overwriting anything; an item whose
basename is taken is moved under the epoch-suffixed name, which never
equals the original basename (so the file already stored under the
original basename is not overwritten) — but the suffixed destination
itself is not re-checked and may clobber a file already bearing it. -/
theorem C8_amended_trash_naming :
    ∀ (clock : ℕ → ℕ) (i : ℕ) (it : Item) (rest : List Item) (dir : List (List Char)),
      ((it.base ++ it.ext) ∉ dir →
        trashAll clock i (it :: rest) dir
          = (it.base ++ it.ext, false)
              :: trashAll clock (i + 1) rest ((it.base ++ it.ext) :: dir))
      ∧ ((it.base ++ it.ext) ∈ dir →
        trashAll clock i (it :: rest) dir
          = (suffixName it.base it.ext (clock i),
              decide (suffixName it.base it.ext (clock i) ∈ dir))
              :: trashAll clock (i + 1) rest (suffixName it.base it.ext (clock i) :: dir)
          ∧ suffixName it.base it.ext (clock i) ≠ it.base ++ it.ext) := by
  intro clock i it rest dir
  constructor
  · intro hnot
    rw [trashAll, if_neg hnot]
    simp [hnot]
  · intro hin
    rw [trashAll, if_pos hin]
    exact ⟨rfl, suffixName_ne_plain it.base it.ext (clock i)⟩

/-- Witness for C8 as amended: one fresh basename and one colliding
basename, at concrete directory states. -/
theorem C8_amended_trash_naming_witness :
    (("a".data ++ ".jpg".data) ∉ (["b.jpg".data] : List (List Char))
      ∧ trashAll (fun _ => 100) 0 [⟨"a".data, ".jpg".data, "20240101".data, 7⟩]
          ["b.jpg".data]
        = ("a".data ++ ".jpg".data, false)
            :: trashAll (fun _ => 100) 1 [] (("a".data ++ ".jpg".data) :: ["b.jpg".data]))
    ∧ (("a".data ++ ".jpg".data) ∈ (["a.jpg".data] : List (List Char))
      ∧ trashAll (fun _ => 100) 0 [⟨"a".data, ".jpg".data, "20240101".data, 7⟩]
          ["a.jpg".data]
        = (suffixName "a".data ".jpg".data 100,
            decide (suffixName "a".data ".jpg".data 100 ∈ (["a.jpg".data] : List (List Char))))
            :: trashAll (fun _ => 100) 1 [] (suffixName "a".data ".jpg".data 100 :: ["a.jpg".data])
      ∧ suffixName "a".data ".jpg".data 100 ≠ "a".data ++ ".jpg".data) := by
  constructor
  · refine ⟨by decide, ?_⟩
    exact (C8_amended_trash_naming (fun _ => 100) 0
      ⟨"a".data, ".jpg".data, "20240101".data, 7⟩ [] ["b.jpg".data]).1 (by decide)
  · refine ⟨by decide, ?_⟩
    exact (C8_amended_trash_naming (fun _ => 100) 0
      ⟨"a".data, ".jpg".data, "20240101".data, 7⟩ [] ["a.jpg".data]).2 (by decide)

theorem range'_filterMap_getElem {α : Type} (l : List α) :
    ∀ n s, s + n ≤ l.length →
      (List.range' s n).filterMap (fun i => l[i]?) = (l.drop s).take n := by
  intro n
  induction n with
  | zero => intro s _; simp
  | succ n ih =>
      intro s hs
      have hslt : s < l.length := by omega
      have hdrop : l.drop s = l[s] :: l.drop (s + 1) := List.drop_eq_getElem_cons hslt
      rw [show List.range' s (n + 1) = s :: List.range' (s + 1) n from rfl]
      rw [List.filterMap_cons]
      rw [List.getElem?_eq_getElem hslt]
      simp only [Option.isSome_some]
      rw [ih (s + 1) (by omega), hdrop, List.take_succ_cons]

theorem pySliceRevTail_eq {α : Type} (l : List α) :
    pySliceRevTail l = ((l.drop 1).dropLast).reverse := by
  unfold pySliceRevTail
  rw [List.filterMap_reverse]
  match hl : l with
  | [] => simp
  | [a] => simp
  | a :: b :: rest =>
      have hlen : (a :: b :: rest).length = rest.length + 2 := by simp
      have h1 : (a :: b :: rest).length - 2 = rest.length := by omega
      rw [h1, range'_filterMap_getElem _ rest.length 1 (by simp only [List.length_cons]; omega)]
      congr 1
      rw [List.dropLast_eq_take]
      simp

/-- C7: bounce-mode assembly yields the forward frame sequence followed by
the reverse of that sequence with its first and last frames removed; in
particular three frames f0 f1 f2 become f0 f1 f2 f1. -/
theorem C7_bounce_assembly :
    (∀ (α : Type) (l : List α),
        bounceAssemble l = l ++ ((l.drop 1).dropLast).reverse)
    ∧ bounceAssemble [0, 1, 2] = [0, 1, 2, 1] := by
  constructor
  · intro α l
    unfold bounceAssemble
    rw [pySliceRevTail_eq]
  · decide

/-- C10: out-of-range included indices are silently dropped (appending any
out-of-range junk leaves the selection unchanged), the selection is
invariant under reordering the caller's index list, and the items are
taken along an ascending-sorted index list, so the frame order follows the
group's order. -/
theorem C10_included_indices :
    ∀ (group : List Item) (idxs idxs' junk : List ℤ),
      (∀ j ∈ junk, j < 0 ∨ (group.length : ℤ) ≤ j) →
      idxs.Perm idxs' →
      selectIncluded group (idxs ++ junk) = selectIncluded group idxs
      ∧ selectIncluded group idxs = selectIncluded group idxs'
      ∧ ∃ sidx, List.Sorted (· ≤ ·) sidx
          ∧ selectIncluded group idxs = sidx.filterMap (fun i : ℤ => group[i.toNat]?) := by
  intro group idxs idxs' junk hjunk hperm
  have hjunknil :
      junk.filter (fun i => decide (0 ≤ i ∧ i < (group.length : ℤ))) = [] := by
    rw [List.filter_eq_nil_iff]
    intro a ha
    have := hjunk a ha
    simp only [decide_eq_true_eq, not_and, not_lt]
    intro h0
    omega
  refine ⟨?_, ?_, ?_⟩
  · unfold selectIncluded
    rw [List.filter_append, hjunknil, List.append_nil]
  · have hpf := hperm.filter (fun i => decide (0 ≤ i ∧ i < (group.length : ℤ)))
    have hs1 := List.sorted_mergeSort'
      (idxs.filter (fun i => decide (0 ≤ i ∧ i < (group.length : ℤ))))
    have hs2 := List.sorted_mergeSort'
      (idxs'.filter (fun i => decide (0 ≤ i ∧ i < (group.length : ℤ))))
    have hpp := ((List.mergeSort_perm
        (idxs.filter (fun i => decide (0 ≤ i ∧ i < (group.length : ℤ))))
        (fun a b => decide (a ≤ b))).trans hpf).trans
      (List.mergeSort_perm
        (idxs'.filter (fun i => decide (0 ≤ i ∧ i < (group.length : ℤ))))
        (fun a b => decide (a ≤ b))).symm
    have heq := List.eq_of_perm_of_sorted hpp hs1 hs2
    unfold selectIncluded
    rw [heq]
  · exact ⟨_, List.sorted_mergeSort' _, rfl⟩

/-- Witness for C10: a three-item group, caller order 2 then 0, junk
indices 5 and -1. -/
theorem C10_included_indices_witness :
    (∀ j ∈ ([5, -1] : List ℤ), j < 0 ∨
        ((([⟨"a".data, ".jpg".data, "20240101".data, 1⟩,
            ⟨"b".data, ".jpg".data, "20240101".data, 2⟩,
            ⟨"c".data, ".jpg".data, "20240101".data, 3⟩] : List Item).length : ℤ) ≤ j))
    ∧ ([2, 0] : List ℤ).Perm [0, 2]
    ∧ (selectIncluded
          [⟨"a".data, ".jpg".data, "20240101".data, 1⟩,
           ⟨"b".data, ".jpg".data, "20240101".data, 2⟩,
           ⟨"c".data, ".jpg".data, "20240101".data, 3⟩] ([2, 0] ++ [5, -1])
        = selectIncluded
          [⟨"a".data, ".jpg".data, "20240101".data, 1⟩,
           ⟨"b".data, ".jpg".data, "20240101".data, 2⟩,
           ⟨"c".data, ".jpg".data, "20240101".data, 3⟩] [2, 0]
      ∧ selectIncluded
          [⟨"a".data, ".jpg".data, "20240101".data, 1⟩,
           ⟨"b".data, ".jpg".data, "20240101".data, 2⟩,
           ⟨"c".data, ".jpg".data, "20240101".data, 3⟩] [2, 0]
        = selectIncluded
          [⟨"a".data, ".jpg".data, "20240101".data, 1⟩,
           ⟨"b".data, ".jpg".data, "20240101".data, 2⟩,
           ⟨"c".data, ".jpg".data, "20240101".data, 3⟩] [0, 2]
      ∧ ∃ sidx, List.Sorted (· ≤ ·) sidx
          ∧ selectIncluded
              [⟨"a".data, ".jpg".data, "20240101".data, 1⟩,
               ⟨"b".data, ".jpg".data, "20240101".data, 2⟩,
               ⟨"c".data, ".jpg".data, "20240101".data, 3⟩] [2, 0]
            = sidx.filterMap (fun i : ℤ =>
                ([⟨"a".data, ".jpg".data, "20240101".data, 1⟩,
                  ⟨"b".data, ".jpg".data, "20240101".data, 2⟩,
                  ⟨"c".data, ".jpg".data, "20240101".data, 3⟩] : List Item)[i.toNat]?)) := by
  refine ⟨by decide, by decide, ?_⟩
  exact C10_included_indices
    [⟨"a".data, ".jpg".data, "20240101".data, 1⟩,
     ⟨"b".data, ".jpg".data, "20240101".data, 2⟩,
     ⟨"c".data, ".jpg".data, "20240101".data, 3⟩] [2, 0] [0, 2] [5, -1]
    (by decide) (by decide)

/-- C6: a save_gif request whose selected items contain no valid (non-video)
frame returns the no-frames client failure and leaves the keep directory
untouched — no filesystem write happens. -/
theorem C6_save_gif_no_frames :
    ∀ (group : List Item) (included : Option (List ℤ)) (mode place : List Char)
      (kept : List (List Char × List ℕ)),
      (∀ it ∈ gifTargets group included, isVideoGifSkip it.path = true) →
      saveGif group included mode place kept
        = (Except.error "No images selected".data, kept) := by
  intro group included mode place kept hall
  have hframes : gifFrames group included = [] := by
    unfold gifFrames
    rw [List.filter_eq_nil_iff.mpr, List.map_nil]
    intro it hit
    simp [hall it hit]
  unfold saveGif
  rw [hframes]
  rfl

/-- Witness for C6: a selection consisting only of a video. -/
theorem C6_save_gif_no_frames_witness :
    (∀ it ∈ gifTargets [⟨"v".data, ".mp4".data, "20240101".data, 9⟩] none,
        isVideoGifSkip it.path = true)
    ∧ saveGif [⟨"v".data, ".mp4".data, "20240101".data, 9⟩] none
        "bounce".data "trip".data [("x.gif".data, [1, 2])]
      = (Except.error "No images selected".data, [("x.gif".data, [1, 2])]) :=
  ⟨by decide,
   C6_save_gif_no_frames [⟨"v".data, ".mp4".data, "20240101".data, 9⟩] none
     "bounce".data "trip".data [("x.gif".data, [1, 2])] (by decide)⟩

/-- Counterexample to C9: with a single group in the session, an action
request for group id 1 (out of range) is answered with a server error
(uncaught IndexError), not a client error. -/
theorem C9_counterexample :
    action_group_outcome ([[⟨"a".data, ".jpg".data, "20240101".data, 7⟩]] :
        List (List Item)) 1 = HttpKind.serverError
    ∧ action_group_outcome ([[⟨"a".data, ".jpg".data, "20240101".data, 7⟩]] :
        List (List Item)) 1 ≠ HttpKind.clientError 404 := by
  exact ⟨by decide, by decide⟩

/-- C9 as amended: only the media route surfaces an out-of-range (too
large) group id as a client error (404); the action and preview routes
perform an unchecked list access, so any id Python cannot resolve raises
an IndexError surfaced as a server error. -/
theorem C9_amended_group_lookup :
    ∀ (α : Type) (groups : List α) (gid : ℤ),
      ((groups.length : ℤ) ≤ gid →
        media_group_outcome groups gid = HttpKind.clientError 404)
      ∧ (pyIndex groups gid = none →
        action_group_outcome groups gid = HttpKind.serverError
        ∧ preview_group_outcome groups gid = HttpKind.serverError) := by
  intro α groups gid
  constructor
  · intro h
    unfold media_group_outcome
    rw [if_pos h]
  · intro h
    unfold action_group_outcome preview_group_outcome
    rw [h]
    exact ⟨rfl, rfl⟩

/-- Witness for C9 as amended at a one-group session and group id 1. -/
theorem C9_amended_group_lookup_witness :
    ((([0] : List ℕ).length : ℤ) ≤ 1
      ∧ media_group_outcome ([0] : List ℕ) 1 = HttpKind.clientError 404)
    ∧ (pyIndex ([0] : List ℕ) 1 = none
      ∧ action_group_outcome ([0] : List ℕ) 1 = HttpKind.serverError
      ∧ preview_group_outcome ([0] : List ℕ) 1 = HttpKind.serverError) :=
  ⟨⟨by decide, (C9_amended_group_lookup ℕ [0] 1).1 (by decide)⟩,
   ⟨by decide, (C9_amended_group_lookup ℕ [0] 1).2 (by decide)⟩⟩
